import Mathlib

/-!
Shallow embedding of the tgo test-report engine (Go sources: tgo.go,
teststorage.go, the events file and the run loop) and proofs about it.

Go strings are modelled as lists of characters (`Str`); Go's `float64`
`Elapsed` field (seconds) is modelled as an integer number of
microseconds; timestamps are modelled as natural numbers (milliseconds)
ordered by `<` as `time.Time.Before`.
-/

namespace Tgo

/-- Go strings, modelled as lists of characters. -/
abbrev Str := List Char

/-- Turn a Lean string literal into the `Str` model. -/
def str (s : String) : Str := s.data

/-- The whitespace set used by Go's `strings.TrimSpace` (ASCII part). -/
def isWS (c : Char) : Bool :=
  c = ' ' || c = '\t' || c = '\n' || c = '\x0b' || c = '\x0c' || c = '\r'

/-- `strings.TrimSpace`: drop whitespace from both ends. -/
def trimSpace (l : Str) : Str :=
  ((l.dropWhile isWS).reverse.dropWhile isWS).reverse

/-- `strings.TrimLeft(s, " ")`: drop leading space characters only. -/
def trimLeftSpaces (l : Str) : Str := l.dropWhile (· = ' ')

/-- `strings.HasPrefix`: `hasPre p l` holds when `l` starts with `p`. -/
def hasPre : Str → Str → Bool
  | [], _ => true
  | _ :: _, [] => false
  | x :: p, y :: l => x = y && hasPre p l

/-- `strings.HasSuffix`: `hasSuf s l` holds when `l` ends with `s`. -/
def hasSuf (s l : Str) : Bool := hasPre s.reverse l.reverse

/-- `strings.TrimPrefix`: drop `p` from the front of `l` when present. -/
def dropPre (p l : Str) : Str := if hasPre p l then l.drop p.length else l

/-- `strings.TrimSuffix`: drop `s` from the end of `l` when present. -/
def dropSuf (s l : Str) : Str :=
  if hasSuf s l then l.take (l.length - s.length) else l

/-- Substring containment (used to state "the line contains ..."). -/
def containsStr (pat : Str) : Str → Bool
  | [] => hasPre pat []
  | y :: l => hasPre pat (y :: l) || containsStr pat l

/-- Decimal rendering of a natural number. -/
def natStr (n : Nat) : Str := (Nat.repr n).data

/-- Two-digit zero padding (`%02d`, used in clock formatting). -/
def pad2 (n : Nat) : Str := if n < 10 then '0' :: natStr n else natStr n

/-- `fmt.Sprintf("%.2f", x)` for the microsecond model of `float64`
seconds: round to the nearest centisecond and print with two decimals
(the rounding agrees with Go on the nonnegative elapsed values the
runner emits). -/
def fmtF2 (micros : Int) : Str :=
  let n : Int := (micros + 5000) / 10000
  let a : Nat := n.natAbs
  (if n < 0 then str "-" else []) ++ natStr (a / 100) ++ str "." ++ pad2 (a % 100)

/-- `fmt.Sprintf("%7s", s)`: right-justify in a field of width 7. -/
def pad7 (s : Str) : Str := List.replicate (7 - s.length) ' ' ++ s

/-- Go's `time.Format("15:04:05.999")` on a timestamp modelled as
milliseconds: fractional seconds with trailing zeros removed. -/
def formatClock (t : Nat) : Str :=
  let ms := t % 1000
  let frac :=
    if ms = 0 then []
    else if ms % 100 = 0 then '.' :: natStr (ms / 100)
    else if ms % 10 = 0 then '.' :: pad2 (ms / 10)
    else '.' :: (if ms < 10 then '0' :: '0' :: natStr ms
                 else if ms < 100 then '0' :: natStr ms else natStr ms)
  pad2 (t / 3600000 % 24) ++ str ":" ++ pad2 (t / 60000 % 60) ++ str ":" ++
    pad2 (t / 1000 % 60) ++ frac

/-! ## Actions and statuses (tgo.go) -/

/-- Go's `type Action string`. -/
abbrev Action := Str

def ActionRun : Action := str "run"
def ActionPause : Action := str "pause"
def ActionCont : Action := str "cont"
def ActionPass : Action := str "pass"
def ActionBench : Action := str "bench"
def ActionFail : Action := str "fail"
def ActionOutput : Action := str "output"
def ActionSkip : Action := str "skip"

/-- `EndingActions = Actions{ActionFail, ActionSkip, ActionPass, ActionBench}`. -/
def EndingActions : List Action := [ActionFail, ActionSkip, ActionPass, ActionBench]

/-- Go's `type Status string`. -/
abbrev Status := Str

def StatusPass : Status := str "pass"
def StatusFail : Status := str "fail"
def StatusSkip : Status := str "skip"
def StatusBench : Status := str "bench"
def StatusNone : Status := str "none"

/-- `Status.IsAction` (tgo.go): a status matches exactly its terminal action. -/
def Status.IsAction (s : Status) (a : Action) : Bool :=
  if a = ActionBench then s = StatusBench
  else if a = ActionPass then s = StatusPass
  else if a = ActionFail then s = StatusFail
  else if a = ActionSkip then s = StatusSkip
  else false

/-- `statusNames` lookup table (tgo.go); a missing key yields the empty
string, as a Go map lookup does. -/
def statusNames (s : Status) : Str :=
  if s = StatusFail then str "FAIL"
  else if s = StatusPass then str "PASS"
  else if s = StatusNone then str "NONE"
  else if s = StatusSkip then str "SKIP"
  else if s = StatusBench then str "BENCH"
  else []

abbrev Statuses := List Status

/-- `Statuses.Any`. -/
def Statuses.Any (ss : Statuses) (statuses : List Status) : Bool :=
  ss.any fun s => statuses.any fun status => s = status

/-- `Statuses.HasAction`. -/
def Statuses.HasAction (ss : Statuses) (a : Action) : Bool :=
  ss.any fun s => s.IsAction a

/-- `type Verbosity int`. -/
abbrev Verbosity := Int

def V0 : Verbosity := 0
def V1 : Verbosity := 1
def V2 : Verbosity := 2
def V3 : Verbosity := 3
def V4 : Verbosity := 4
def V5 : Verbosity := 5

/-! ## Event and Key model -/

/-- One event from the test runner (the `Event` struct). `time` is modelled
as milliseconds, `elapsed` as an integer number of microseconds. -/
structure Event where
  time : Nat
  action : Action
  package : Str
  test : Str
  elapsed : Int
  output : Str
deriving DecidableEq, Repr, Inhabited

/-- `(package, test)` identity (the `Key` struct). -/
structure Key where
  package : Str
  test : Str
deriving DecidableEq, Repr

/-- `Event.Key()`. -/
def Event.key (e : Event) : Key := ⟨e.package, e.test⟩

/-- `Key.String()`. -/
def Key.string (k : Key) : Str :=
  if k.test = [] then k.package else k.package ++ str "." ++ k.test

abbrev Events := List Event

/-- `Events.Status()`: scan in order, first terminal action decides. -/
def Events.Status : Events → Status
  | [] => StatusNone
  | e :: es =>
    if e.action = ActionFail then StatusFail
    else if e.action = ActionPass then StatusPass
    else if e.action = ActionSkip then StatusSkip
    else if e.action = ActionBench then StatusBench
    else Events.Status es

/-- `Events.FindFirstByAction(actions...)`: first event whose action is
one of the given actions. -/
def Events.FindFirstByAction (es : Events) (actions : List Action) : Option Event :=
  es.find? fun e => actions.any fun a => e.action = a

/-! ## Stable sorting (Go's `sort.SliceStable`)

Go's `sort.SliceStable` runs straight insertion sort on slices of at most
20 elements (its internal block size) and then stably merges blocks for
longer slices; the insertion sort below is that algorithm, and every
concrete slice considered in the theorems is short.  An element sinks to
the left while `less(element, left neighbour)` holds. -/

/-- One insertion step over the reversed already-sorted block:
`sinkRev less x r` inserts `x` into the reversed block `r`. -/
def sinkRev (less : α → α → Bool) (x : α) : List α → List α
  | [] => [x]
  | y :: r => if less x y then y :: sinkRev less x r else x :: y :: r

/-- Insertion sort as performed by `sort.SliceStable` for short slices. -/
def insSort (less : α → α → Bool) (l : List α) : List α :=
  (l.foldl (fun r x => sinkRev less x r) []).reverse

/-- `Events.SortByTime()`: stable sort by `Time.Before`, i.e. strict `<`
on the timestamp model. -/
def Events.SortByTime (es : Events) : Events :=
  insSort (fun a b => a.time < b.time) es

/-! ## Compactor (`Events.Compact`) -/

/-- The removal test of `Events.Compact` for one event, given the elapsed
values taken from the history's first pass/fail/skip events. -/
def compactRemove (passedAt failedAt skippedAt : Int) (e : Event) : Bool :=
  let output := trimLeftSpaces e.output
  let outputWS := trimSpace e.output
  e.action = ActionRun ||
  e.action = ActionCont ||
  e.action = ActionPause ||
  (e.action = ActionOutput && decide (e.test ≠ []) &&
    (output = str "=== RUN   " ++ e.test ++ str "\n" ||
     output = str "=== CONT  " ++ e.test ++ str "\n" ||
     output = str "=== PAUSE " ++ e.test ++ str "\n" ||
     output = str "--- FAIL: " ++ e.test ++ str " (" ++ fmtF2 failedAt ++ str "s)\n" ||
     output = str "--- SKIP: " ++ e.test ++ str " (" ++ fmtF2 skippedAt ++ str "s)\n" ||
     output = str "--- PASS: " ++ e.test ++ str " (" ++ fmtF2 passedAt ++ str "s)\n")) ||
  (e.action = ActionOutput && decide (e.package ≠ []) && e.test = [] &&
    (hasPre (str "ok  \t" ++ e.package) output ||
     hasSuf (str "[no test files]\n") output ||
     output = str "ok   " ++ e.package ++ str "\n" ||
     output = str "PASS\n" ||
     output = str "FAIL\n" ||
     hasPre (str "FAIL\t" ++ e.package ++ str "\t") outputWS ||
     (hasPre (str "coverage:") outputWS && hasSuf (str "of statements") outputWS)))

/-- The `passedAt`/`failedAt`/`skippedAt` locals computed at the top of
`Events.Compact` (Go zero value `0` when no such event exists). -/
def compactParams (es : Events) : Int × Int × Int :=
  (((es.FindFirstByAction [ActionPass]).map Event.elapsed).getD 0,
   ((es.FindFirstByAction [ActionFail]).map Event.elapsed).getD 0,
   ((es.FindFirstByAction [ActionSkip]).map Event.elapsed).getD 0)

/-- `Events.Compact()`: drop boilerplate events, keeping all others in
order.  The elapsed parameters are read off the original history first. -/
def Events.Compact (es : Events) : Events :=
  es.filter fun e =>
    ! compactRemove (compactParams es).1 (compactParams es).2.1 (compactParams es).2.2 e

/-- `Events.IsPackageWithoutTest()`. -/
def Events.IsPackageWithoutTest (es : Events) : Bool :=
  es.any fun e =>
    e.action = ActionOutput && decide (e.package ≠ []) && e.test = [] &&
      hasSuf (str "[no test files]\n") (trimLeftSpaces e.output)

/-- The match test used by `Events.FindCoverage`. -/
def coverageMatch (e : Event) : Bool :=
  e.action = ActionOutput &&
    hasPre (str "coverage: ") (trimSpace e.output) &&
    hasSuf (str " of statements") (trimSpace e.output)

/-- The extraction step of `Events.FindCoverage` on a matching line. -/
def coverageExtract (output : Str) : Str :=
  trimSpace (dropSuf (str "of statements") (dropPre (str "coverage:") (trimSpace output)))

/-- `Events.FindCoverage()`: only for a history whose first event is
package-level; first matching output line decides. -/
def Events.FindCoverage (es : Events) : Str :=
  match es with
  | [] => []
  | e0 :: _ =>
    if e0.package = [] || decide (e0.test ≠ []) then []
    else
      match es.find? coverageMatch with
      | some e => coverageExtract e.output
      | none => []

/-! ## Reporter (`Events.PrintDetail`)

The colour functions of tgo.go are modelled as the identity on text, as
the spec treats `colorize(category, text) -> text` as an external
collaborator.  `PrintDetail` writes to standard output; the model returns
the written text. -/

/-- The representative event picked by `PrintDetail` for a status. -/
def detailEvent (events : Events) (status : Status) : Option Event :=
  if status = StatusFail then events.FindFirstByAction [ActionFail]
  else if status = StatusPass then events.FindFirstByAction [ActionPass]
  else if status = StatusSkip then events.FindFirstByAction [ActionSkip]
  else if status = StatusBench then events.FindFirstByAction [ActionBench]
  else none

/-- `Events.PrintDetail(V)`: the detail block written for one identity. -/
def Events.PrintDetail (es : Events) (V : Verbosity) : Str :=
  if es = [] then []
  else
    let events := if V ≤ V3 then es.Compact else es
    if events = [] then []
    else
      let events := events.SortByTime
      let status := events.Status
      let event := match detailEvent events status with
        | some e => e
        | none => events.headI
      let testName := if event.test = [] then [] else str "." ++ event.test
      let sb₁ := if event.elapsed ≥ 10000
        then str "  " ++ str "(" ++ fmtF2 event.elapsed ++ str "s)" else []
      let coverage := es.FindCoverage
      let sb₂ := if coverage.length > 0
        then str "  " ++ str "\x7b" ++ coverage ++ str "\x7d" else []
      let sb₃ := if es.IsPackageWithoutTest then str "  " ++ str "[no tests]" else []
      let filteredEvents := events.filter fun e =>
        ! (decide (V ≤ V3) && trimSpace e.output = [])
      let header := str "═══" ++ str " " ++ statusNames status ++ str " " ++
        event.package ++ testName ++ sb₁ ++ sb₂ ++ sb₃ ++ str "\n"
      let blank : Str := if filteredEvents.length > 0 then str "\n" else []
      let lines := filteredEvents.map fun e =>
        let ss : List Str :=
          (if V ≥ V3 then [pad7 e.action] else []) ++
          (if V ≥ V2 then [formatClock e.time] else []) ++
          [dropSuf (str "\n") e.output, str "\n"]
        List.intercalate (str " ") ss
      header ++ blank ++ lines.flatten ++ blank

/-! ## Orderer (teststorage.go `OrderedKeys`) -/

/-- Plain lexicographic comparison on character lists. -/
def strLt : Str → Str → Bool
  | [], [] => false
  | [], _ :: _ => true
  | _ :: _, [] => false
  | x :: xs, y :: ys => if x = y then strLt xs ys else decide (x < y)

/-- Numeric value of a digit run. -/
def digitsVal (s : Str) : Nat :=
  s.foldl (fun n c => n * 10 + (c.toNat - '0'.toNat)) 0

/-- Fuel-indexed worker for `naturalLess`; the fuel only bounds the
recursion depth and every call made by `naturalLess` carries enough of
it, so the `0` case is never reached from the wrapper. -/
def naturalLessF : Nat → Str → Str → Bool
  | 0, _, _ => false
  | _ + 1, [], [] => false
  | _ + 1, [], _ :: _ => true
  | _ + 1, _ :: _, [] => false
  | fuel + 1, x :: xs, y :: ys =>
    if x.isDigit && y.isDigit then
      let da := (x :: xs).takeWhile Char.isDigit
      let ra := (x :: xs).dropWhile Char.isDigit
      let db := (y :: ys).takeWhile Char.isDigit
      let rb := (y :: ys).dropWhile Char.isDigit
      if digitsVal da ≠ digitsVal db then decide (digitsVal da < digitsVal db)
      else if da ≠ db then strLt da db
      else naturalLessF fuel ra rb
    else if x = y then naturalLessF fuel xs ys
    else decide (x < y)

/-- Modelled from the spec: the external library `github.com/maruel/natural`
is not part of this repository; the spec describes it as "natural
(numeric-aware) lexicographic order on the string form" with "test2"
before "test10".  Maximal digit runs are compared by numeric value (equal
values such as "01"/"1" fall back to lexicographic order), other
characters one by one. -/
def naturalLess (a b : Str) : Bool :=
  naturalLessF (a.length + b.length + 1) a b

/-- The comparator of `TestStorage.OrderedKeys`: a package-level key is
pushed after its package's test keys, everything else is natural order on
`Key.String()`. -/
def keyLess (a b : Key) : Bool :=
  if a.package = b.package && (a.test = [] || b.test = []) then
    decide (b.test.length < a.test.length)
  else naturalLess a.string b.string

/-- `TestStorage.OrderedKeys()` as a function of the store's key list;
the list order stands for Go's unspecified map iteration order. -/
def sortKeys (ks : List Key) : List Key := insSort keyLess ks

/-! ## Event Store and run loop (teststorage.go, the `run` function) -/

/-- The Event Store, modelled as an association list in first-insertion
order (the contents of the Go map `TestStorage`). -/
abbrev TestStorage := List (Key × Events)

/-- `TestStorage.Append(e)`: append to the key's history, creating it at
the end when absent. -/
def TestStorage.Append (ts : TestStorage) (e : Event) : TestStorage :=
  match ts with
  | [] => [(e.key, [e])]
  | (k, es) :: rest =>
    if k = e.key then (k, es ++ [e]) :: rest else (k, es) :: TestStorage.Append rest e

/-- The store's key set, in insertion order. -/
def keysOf (ts : TestStorage) : List Key := ts.map Prod.fst

/-- Map read `ts[key]` (missing key yields the empty history). -/
def TestStorage.get (ts : TestStorage) (k : Key) : Events :=
  ((ts.find? fun p => p.1 = k).map Prod.snd).getD []

/-- `TestStorage.FilterKeys(exclude)`: keep keys not in the excluded set. -/
def TestStorage.FilterKeys (ts : TestStorage) (exclude : List Key) : TestStorage :=
  ts.filter fun p => ! exclude.contains p.1

/-- `TestStorage.FilterAction(actions...)`: keep keys none of whose events
has one of the given actions. -/
def TestStorage.FilterAction (ts : TestStorage) (actions : List Action) : TestStorage :=
  ts.filter fun p => ! p.2.any fun e => actions.any fun a => e.action = a

/-- `OrderedKeys` on the modelled store (iteration order = insertion order). -/
def TestStorage.OrderedKeys (ts : TestStorage) : List Key := sortKeys (keysOf ts)

/-- The configuration consumed by `run` (flag parsing is external). -/
structure Flags where
  V : Verbosity
  Results : Statuses
  Summary : Statuses

/-- State of the ingestion loop: the store, the "already rendered" key
set, the keys rendered live in order, and the count of logged decode
diagnostics. -/
structure RunState where
  tests : TestStorage
  printed : List Key
  liveOut : List Key
  diags : Nat
deriving DecidableEq, Repr

def initState : RunState := ⟨[], [], [], 0⟩

/-- One iteration of the scan loop of `run`: `none` is a line that failed
to decode (logged and skipped), `some e` a decoded event. -/
def step (flags : Flags) (s : RunState) (line : Option Event) : RunState :=
  match line with
  | none => { s with diags := s.diags + 1 }
  | some e =>
    let tests := s.tests.Append e
    if ! s.printed.contains e.key && flags.Results.HasAction e.action then
      { tests := tests, printed := e.key :: s.printed,
        liveOut := s.liveOut ++ [e.key], diags := s.diags }
    else { s with tests := tests }

/-- The whole ingesting phase over a decoded input stream. -/
def livePhase (flags : Flags) (input : List (Option Event)) : RunState :=
  input.foldl (step flags) initState

/-- The keys rendered by the draining pass of `run`: only reached when the
store is non-empty and the Results filter contains `none`; the keys not
yet printed whose history has no ending action, in `OrderedKeys` order. -/
def drainKeys (flags : Flags) (s : RunState) : List Key :=
  if s.tests ≠ [] ∧ Statuses.Any flags.Results [StatusNone] then
    ((s.tests.FilterKeys s.printed).FilterAction EndingActions).OrderedKeys
  else []

/-! ## Helper lemmas -/

/-- An event carrying a terminal action (glossary: fail/pass/skip/bench). -/
def isEndingEvent (e : Event) : Bool := EndingActions.any fun a => e.action = a

/-- The status corresponding to a terminal action, `none` otherwise. -/
def actionStatus (a : Action) : Status :=
  if a = ActionFail then StatusFail
  else if a = ActionPass then StatusPass
  else if a = ActionSkip then StatusSkip
  else if a = ActionBench then StatusBench
  else StatusNone

theorem status_eq_find (es : Events) :
    es.Status =
      ((es.find? isEndingEvent).map fun e => actionStatus e.action).getD StatusNone := by
  induction es with
  | nil => rfl
  | cons e es ih =>
    by_cases hf : e.action = ActionFail
    · simp [Events.Status, hf, isEndingEvent, EndingActions, List.find?_cons, actionStatus]
    · by_cases hp : e.action = ActionPass
      · simp [Events.Status, hf, hp, isEndingEvent, EndingActions, List.find?_cons,
          actionStatus]
      · by_cases hs : e.action = ActionSkip
        · simp [Events.Status, hf, hp, hs, isEndingEvent, EndingActions, List.find?_cons,
            actionStatus]
        · by_cases hb : e.action = ActionBench
          · simp [Events.Status, hf, hp, hs, hb, isEndingEvent, EndingActions,
              List.find?_cons, actionStatus]
          · simp [Events.Status, hf, hp, hs, hb, isEndingEvent, EndingActions,
              List.find?_cons, ih]

theorem find?_filter_of_imp (l : List α) {f g : α → Bool}
    (h : ∀ a, g a = true → f a = true) : (l.filter f).find? g = l.find? g := by
  induction l with
  | nil => rfl
  | cons x l ih =>
    by_cases hf : f x = true
    · by_cases hg : g x = true <;> simp [List.filter_cons, hf, List.find?_cons, hg, ih]
    · have hg : g x = false := by
        cases hgx : g x
        · rfl
        · exact absurd (h x hgx) hf
      simp [List.filter_cons, hf, List.find?_cons, hg, ih]

/-- The Compactor never removes an event with a terminal action. -/
theorem compactRemove_ending (pp ff ss : Int) (e : Event)
    (h : isEndingEvent e = true) : compactRemove pp ff ss e = false := by
  obtain ⟨t, a, pk, ts, el, o⟩ := e
  simp only [isEndingEvent, EndingActions, List.any_cons, List.any_nil,
    Bool.or_eq_true, decide_eq_true_eq, or_false] at h
  rcases h with h | h | h | h | h
  · subst h; rfl
  · subst h; rfl
  · subst h; rfl
  · subst h; rfl
  · exact absurd h (by simp)

theorem findFirst_compact (es : Events) (act : Action)
    (hact : ∀ e : Event, e.action = act → isEndingEvent e = true) :
    es.Compact.FindFirstByAction [act] = es.FindFirstByAction [act] := by
  unfold Events.Compact Events.FindFirstByAction
  apply find?_filter_of_imp
  intro e he
  simp only [List.any_cons, List.any_nil, Bool.or_eq_true, decide_eq_true_eq] at he
  rcases he with he | he
  · simp [compactRemove_ending _ _ _ _ (hact e he)]
  · exact absurd he (by simp)

theorem compactParams_compact (es : Events) :
    compactParams es.Compact = compactParams es := by
  unfold compactParams
  rw [findFirst_compact es ActionPass (by intro e he; simp [isEndingEvent, EndingActions, he]),
    findFirst_compact es ActionFail (by intro e he; simp [isEndingEvent, EndingActions, he]),
    findFirst_compact es ActionSkip (by intro e he; simp [isEndingEvent, EndingActions, he])]

theorem hasPre_append (p r : Str) : hasPre p (p ++ r) = true := by
  induction p with
  | nil => rfl
  | cons x p ih => simp [hasPre, ih]

theorem dropPre_append (p r : Str) : dropPre p (p ++ r) = r := by
  simp [dropPre, hasPre_append, List.drop_left]

theorem hasSuf_append (s r : Str) : hasSuf s (r ++ s) = true := by
  simp [hasSuf, List.reverse_append, hasPre_append]

theorem dropSuf_append (s r : Str) : dropSuf s (r ++ s) = r := by
  have hl : (r ++ s).length - s.length = r.length := by simp
  simp [dropSuf, hasSuf_append, hl, List.take_left]

theorem trimSpace_cons_space (l : Str) : trimSpace (' ' :: l) = trimSpace l := by
  simp [trimSpace, List.dropWhile_cons, isWS]

theorem trimSpace_append_space (l : Str) : trimSpace (l ++ [' ']) = trimSpace l := by
  unfold trimSpace
  rw [List.dropWhile_append]
  by_cases h : (l.dropWhile isWS).isEmpty
  · rw [if_pos h]
    rw [List.isEmpty_iff] at h
    rw [h]
    rfl
  · rw [if_neg h]
    rw [List.reverse_append]
    show ((' ' :: (l.dropWhile isWS).reverse).dropWhile isWS).reverse = _
    rw [List.dropWhile_cons]
    simp [isWS]

/-- The extraction step of `FindCoverage` on a matched line computes the
trimmed text between the `"coverage: "` and `" of statements"` markers. -/
theorem coverageExtract_between (output mid : Str)
    (h : trimSpace output = str "coverage: " ++ mid ++ str " of statements") :
    coverageExtract output = trimSpace mid := by
  unfold coverageExtract
  rw [h]
  have h1 : str "coverage: " ++ mid ++ str " of statements" =
      str "coverage:" ++ ((' ' :: mid ++ [' ']) ++ str "of statements") := by
    simp [str]
  rw [h1, dropPre_append, dropSuf_append, trimSpace_append_space, trimSpace_cons_space]

theorem strLt_asymm : ∀ a b : Str, strLt a b = true → strLt b a = false := by
  intro a
  induction a with
  | nil => intro b h; cases b <;> simp [strLt] at h ⊢
  | cons x xs ih =>
    intro b h
    cases b with
    | nil => simp [strLt] at h
    | cons y ys =>
      by_cases hxy : x = y
      · subst hxy
        simp only [strLt, if_pos rfl] at h ⊢
        exact ih ys h
      · have h2 : x < y := by simpa [strLt, hxy] using h
        simp [strLt, Ne.symm hxy]
        exact le_of_lt h2

theorem naturalLessF_asymm :
    ∀ (fuel : Nat) (a b : Str),
      naturalLessF fuel a b = true → naturalLessF fuel b a = false := by
  intro fuel
  induction fuel with
  | zero => intro a b h; simp [naturalLessF] at h
  | succ n ih =>
    intro a b h
    match a, b with
    | [], [] => simp [naturalLessF] at h
    | [], _ :: _ => simp [naturalLessF]
    | _ :: _, [] => simp [naturalLessF] at h
    | x :: xs, y :: ys =>
      simp only [naturalLessF] at h ⊢
      by_cases hd : (x.isDigit && y.isDigit) = true
      · have hd' : (y.isDigit && x.isDigit) = true := by rw [Bool.and_comm]; exact hd
        rw [if_pos hd] at h
        rw [if_pos hd']
        by_cases hv : digitsVal ((x :: xs).takeWhile Char.isDigit) ≠
            digitsVal ((y :: ys).takeWhile Char.isDigit)
        · rw [if_pos hv] at h
          rw [if_pos (Ne.symm hv)]
          simp only [decide_eq_true_eq] at h
          simp only [decide_eq_false_iff_not]
          omega
        · rw [if_neg hv] at h
          rw [if_neg fun hc => hv (Ne.symm hc)]
          by_cases hde : (x :: xs).takeWhile Char.isDigit ≠ (y :: ys).takeWhile Char.isDigit
          · rw [if_pos hde] at h
            rw [if_pos (Ne.symm hde)]
            exact strLt_asymm _ _ h
          · rw [if_neg hde] at h
            rw [if_neg fun hc => hde (Ne.symm hc)]
            exact ih _ _ h
      · have hd' : ¬ ((y.isDigit && x.isDigit) = true) := by rw [Bool.and_comm]; exact hd
        rw [if_neg hd] at h
        rw [if_neg hd']
        by_cases hxy : x = y
        · subst hxy
          rw [if_pos rfl] at h
          rw [if_pos rfl]
          exact ih _ _ h
        · rw [if_neg hxy] at h
          rw [if_neg (Ne.symm hxy)]
          simp only [decide_eq_true_eq] at h
          simp only [decide_eq_false_iff_not]
          exact lt_asymm h

theorem naturalLess_asymm (a b : Str) (h : naturalLess a b = true) :
    naturalLess b a = false := by
  unfold naturalLess at h ⊢
  rw [Nat.add_comm b.length a.length]
  exact naturalLessF_asymm _ _ _ h

theorem keyLess_asymm (a b : Key) (h : keyLess a b = true) : keyLess b a = false := by
  obtain ⟨ap, av⟩ := a
  obtain ⟨bp, bv⟩ := b
  unfold keyLess at h ⊢
  by_cases hp : ap = bp
  · subst hp
    by_cases hae : av = []
    · subst hae
      simp at h
    · by_cases hbe : bv = []
      · subst hbe
        simp
      · have := naturalLess_asymm _ _ (show naturalLess _ _ = true by
          simpa [hae, hbe] using h)
        simpa [hae, hbe] using this
  · have hps : ¬ bp = ap := Ne.symm hp
    have := naturalLess_asymm _ _ (show naturalLess _ _ = true by
      simpa [hp] using h)
    simpa [hps] using this

theorem sinkRev_perm (less : α → α → Bool) (x : α) :
    ∀ r : List α, (sinkRev less x r).Perm (x :: r) := by
  intro r
  induction r with
  | nil => exact List.Perm.refl _
  | cons y r ih =>
    unfold sinkRev
    by_cases h : less x y = true
    · rw [if_pos h]
      exact (ih.cons y).trans (List.Perm.swap x y r)
    · rw [if_neg h]

theorem insSort_perm (less : α → α → Bool) (l : List α) : (insSort less l).Perm l := by
  have key : ∀ (l acc : List α),
      (l.foldl (fun r x => sinkRev less x r) acc).Perm (l.reverse ++ acc) := by
    intro l
    induction l with
    | nil => intro acc; simp
    | cons x l ih =>
      intro acc
      show (l.foldl _ (sinkRev less x acc)).Perm _
      refine ((ih (sinkRev less x acc)).trans ?_)
      refine (List.Perm.append_left l.reverse (sinkRev_perm less x acc)).trans ?_
      rw [List.reverse_cons, List.append_assoc]
      exact List.Perm.refl _
  have h := key l []
  unfold insSort
  refine (List.reverse_perm _).trans ?_
  refine h.trans ?_
  rw [List.append_nil]
  exact List.reverse_perm l

theorem sortKeys_perm (ks : List Key) : (sortKeys ks).Perm ks := insSort_perm keyLess ks

theorem step_tests_none (flags : Flags) (s : RunState) :
    (step flags s none).tests = s.tests := rfl

theorem step_tests_some (flags : Flags) (s : RunState) (e : Event) :
    (step flags s (some e)).tests = s.tests.Append e := by
  simp only [step]
  split <;> rfl

theorem step_core_none (flags : Flags) (s : RunState) :
    (step flags s none).printed = s.printed ∧ (step flags s none).liveOut = s.liveOut :=
  ⟨rfl, rfl⟩

theorem step_diags (flags : Flags) (s : RunState) :
    ∀ x, (step flags s x).diags = s.diags + (if x = none then 1 else 0) := by
  intro x
  cases x with
  | none => rfl
  | some e =>
    simp only [step]
    split <;> simp

/-- The scan-loop step only reads the printed set and the store, never the
diagnostics counter: states agreeing on the first three fields keep
agreeing. -/
theorem foldl_step_core_congr (flags : Flags) :
    ∀ (input : List (Option Event)) (s₁ s₂ : RunState),
      s₁.tests = s₂.tests → s₁.printed = s₂.printed → s₁.liveOut = s₂.liveOut →
      (input.foldl (step flags) s₁).tests = (input.foldl (step flags) s₂).tests ∧
      (input.foldl (step flags) s₁).printed = (input.foldl (step flags) s₂).printed ∧
      (input.foldl (step flags) s₁).liveOut = (input.foldl (step flags) s₂).liveOut := by
  intro input
  induction input with
  | nil => intro s₁ s₂ h1 h2 h3; exact ⟨h1, h2, h3⟩
  | cons x input ih =>
    intro s₁ s₂ h1 h2 h3
    apply ih
    all_goals cases x with
    | none => simp [step, h1, h2, h3]
    | some e => simp only [step]; rw [h1, h2, h3]; split <;> simp [h1, h2, h3]

theorem foldl_step_diags (flags : Flags) :
    ∀ (input : List (Option Event)) (s : RunState),
      (input.foldl (step flags) s).diags = s.diags + input.count none := by
  intro input
  induction input with
  | nil => intro s; simp
  | cons x input ih =>
    intro s
    show (input.foldl (step flags) (step flags s x)).diags = _
    rw [ih, step_diags]
    cases x <;> simp [List.count_cons] <;> omega

theorem foldl_step_tests (flags : Flags) :
    ∀ (input : List (Option Event)) (s : RunState),
      (input.foldl (step flags) s).tests =
        (input.filterMap id).foldl TestStorage.Append s.tests := by
  intro input
  induction input with
  | nil => intro s; rfl
  | cons x input ih =>
    intro s
    cases x with
    | none =>
      show (input.foldl (step flags) (step flags s none)).tests = _
      rw [ih, step_tests_none]
      rfl
    | some e =>
      show (input.foldl (step flags) (step flags s (some e))).tests = _
      rw [ih, step_tests_some]
      rfl

theorem get_Append (ts : TestStorage) (e : Event) (k : Key) :
    TestStorage.get (ts.Append e) k =
      if e.key = k then TestStorage.get ts k ++ [e] else TestStorage.get ts k := by
  induction ts with
  | nil =>
    by_cases h : e.key = k <;> simp [TestStorage.Append, TestStorage.get, List.find?, h]
  | cons p rest ih =>
    obtain ⟨k', es'⟩ := p
    by_cases h1 : k' = e.key
    · by_cases h2 : k' = k
      · have h3 : e.key = k := h1 ▸ h2
        simp [TestStorage.Append, TestStorage.get, List.find?, h1, h2, h3]
      · have h3 : ¬ (e.key = k) := fun hc => h2 (h1.trans hc)
        simp [TestStorage.Append, TestStorage.get, List.find?, h1, h2, h3]
    · by_cases h2 : k' = k
      · have h3 : ¬ (e.key = k) := fun hc => h1 (h2.trans hc.symm)
        have h4 : ¬ (k = e.key) := fun hc => h3 hc.symm
        simp [TestStorage.Append, TestStorage.get, List.find?, h1, h2, h3, h4]
      · simp only [TestStorage.Append, if_neg h1]
        simp only [TestStorage.get, List.find?] at ih ⊢
        simp [h2, ih]

theorem get_foldl_Append :
    ∀ (evs : List Event) (ts : TestStorage) (k : Key),
      TestStorage.get (evs.foldl TestStorage.Append ts) k =
        TestStorage.get ts k ++ evs.filter fun e => decide (e.key = k) := by
  intro evs
  induction evs with
  | nil => intro ts k; simp
  | cons e evs ih =>
    intro ts k
    show TestStorage.get (evs.foldl TestStorage.Append (ts.Append e)) k = _
    rw [ih, get_Append]
    by_cases h : e.key = k <;> simp [h, List.filter_cons]

theorem keysOf_Append (ts : TestStorage) (e : Event) :
    keysOf (ts.Append e) =
      if e.key ∈ keysOf ts then keysOf ts else keysOf ts ++ [e.key] := by
  induction ts with
  | nil => simp [TestStorage.Append, keysOf]
  | cons p rest ih =>
    obtain ⟨k', es'⟩ := p
    by_cases h1 : k' = e.key
    · subst h1
      simp [TestStorage.Append, keysOf]
    · have h2 : ¬ (e.key = k') := fun hc => h1 hc.symm
      simp only [TestStorage.Append, if_neg h1, keysOf, List.map_cons] at ih ⊢
      rw [ih]
      by_cases h3 : e.key ∈ List.map Prod.fst rest <;> simp [h3, h2]

theorem nodup_keysOf_Append (ts : TestStorage) (e : Event)
    (h : (keysOf ts).Nodup) : (keysOf (ts.Append e)).Nodup := by
  rw [keysOf_Append]
  by_cases hm : e.key ∈ keysOf ts
  · rw [if_pos hm]; exact h
  · rw [if_neg hm]
    simp [List.nodup_append, h, hm]

/-- The get of an association pair present in a store with distinct keys. -/
theorem get_of_mem_nodup :
    ∀ (ts : TestStorage) (k : Key) (es : Events),
      (keysOf ts).Nodup → (k, es) ∈ ts → TestStorage.get ts k = es := by
  intro ts
  induction ts with
  | nil => intro k es _ hmem; simp at hmem
  | cons p rest ih =>
    intro k es hnd hmem
    obtain ⟨k', es'⟩ := p
    rcases List.mem_cons.mp hmem with heq | hrest
    · injection heq with h1 h2
      subst h1; subst h2
      simp [TestStorage.get, List.find?]
    · by_cases hk : k' = k
      · subst hk
        exfalso
        have : k' ∈ keysOf rest := List.mem_map.mpr ⟨(k', es), hrest, rfl⟩
        simp only [keysOf, List.map_cons, List.nodup_cons] at hnd
        exact hnd.1 this
      · have hnd' : (keysOf rest).Nodup := by
          simp only [keysOf, List.map_cons, List.nodup_cons] at hnd
          exact hnd.2
        simp only [TestStorage.get, List.find?]
        simp only [hk, decide_False]
        exact ih k es hnd' hrest

/-- The run-loop invariant: store keys are distinct, and the printed set
is exactly the set of keys rendered live, without duplicates. -/
def RunInv (s : RunState) : Prop :=
  (keysOf s.tests).Nodup ∧ (∀ k : Key, k ∈ s.printed ↔ k ∈ s.liveOut) ∧
    s.liveOut.Nodup

theorem step_inv (flags : Flags) (s : RunState) (x : Option Event)
    (h : RunInv s) : RunInv (step flags s x) := by
  obtain ⟨h1, h2, h3⟩ := h
  cases x with
  | none => exact ⟨h1, h2, h3⟩
  | some e =>
    simp only [step]
    split
    · next hcond =>
      have hnp : e.key ∉ s.printed := by
        simp only [Bool.and_eq_true, Bool.not_eq_true'] at hcond
        simpa using hcond.1
      refine ⟨nodup_keysOf_Append _ _ h1, ?_, ?_⟩
      · intro k
        simp only [List.mem_cons, List.mem_append, List.mem_singleton, h2 k]
        tauto
      · have hnl : e.key ∉ s.liveOut := fun hc => hnp ((h2 e.key).mpr hc)
        simp [List.nodup_append, h3, hnl]
    · exact ⟨nodup_keysOf_Append _ _ h1, h2, h3⟩

theorem livePhase_inv (flags : Flags) (input : List (Option Event)) :
    RunInv (livePhase flags input) := by
  have hgen : ∀ (l : List (Option Event)) (s : RunState), RunInv s →
      RunInv (l.foldl (step flags) s) := by
    intro l
    induction l with
    | nil => intro s h; exact h
    | cons x l ih => intro s h; exact ih _ (step_inv flags s x h)
  exact hgen input initState ⟨List.nodup_nil, fun k => by simp [initState], List.nodup_nil⟩

theorem drainKeys_nodup (flags : Flags) (s : RunState) (hinv : RunInv s) :
    (drainKeys flags s).Nodup := by
  unfold drainKeys
  split
  · refine ((sortKeys_perm _).nodup_iff).mpr ?_
    refine List.Nodup.sublist ?_ hinv.1
    unfold TestStorage.FilterAction TestStorage.FilterKeys keysOf
    exact ((List.filter_sublist _).trans (List.filter_sublist _)).map Prod.fst
  · exact List.nodup_nil

theorem mem_drainKeys_not_printed (flags : Flags) (s : RunState) (k : Key)
    (h : k ∈ drainKeys flags s) : k ∉ s.printed := by
  unfold drainKeys at h
  split at h
  · obtain ⟨p, hmem, hfst⟩ := List.mem_map.mp ((sortKeys_perm _).mem_iff.mp h)
    obtain ⟨k', es⟩ := p
    have h3 := List.mem_filter.mp hmem
    have h4 := (List.mem_filter.mp h3.1).2
    simp only at hfst
    subst hfst
    simpa using h4
  · simp at h

theorem mem_drainKeys_of (flags : Flags) (s : RunState) (hinv : RunInv s) (k : Key)
    (hmem : k ∈ keysOf s.tests) (hnp : k ∉ s.printed)
    (hnone : Statuses.Any flags.Results [StatusNone] = true)
    (hend : ∀ e ∈ TestStorage.get s.tests k, isEndingEvent e = false) :
    k ∈ drainKeys flags s := by
  have hne : s.tests ≠ [] := by
    intro hc
    rw [hc] at hmem
    simp [keysOf] at hmem
  unfold drainKeys
  rw [if_pos ⟨hne, hnone⟩]
  refine (sortKeys_perm _).mem_iff.mpr ?_
  obtain ⟨p, hpair, hfst⟩ := List.mem_map.mp hmem
  obtain ⟨k', es⟩ := p
  simp only at hfst
  subst hfst
  have hget : TestStorage.get s.tests k' = es := get_of_mem_nodup _ _ _ hinv.1 hpair
  have hf1 : (k', es) ∈ TestStorage.FilterKeys s.tests s.printed :=
    List.mem_filter.mpr ⟨hpair, by simpa using hnp⟩
  have hf2 : (k', es) ∈ (TestStorage.FilterKeys s.tests s.printed).FilterAction
      EndingActions := by
    refine List.mem_filter.mpr ⟨hf1, ?_⟩
    have : es.any isEndingEvent = false := by
      rw [List.any_eq_false]
      intro e he
      simpa using hend e (hget ▸ he)
    simpa [isEndingEvent] using this
  exact List.mem_map.mpr ⟨(k', es), hf2, rfl⟩

/-- Full characterization of the draining pass: a key is drained exactly
when it is stored, unprinted, the Results filter contains `none`, and its
history has no terminal action. -/
theorem mem_drainKeys_iff (flags : Flags) (s : RunState) (hinv : RunInv s) (k : Key) :
    k ∈ drainKeys flags s ↔
      (k ∈ keysOf s.tests ∧ k ∉ s.printed ∧
       Statuses.Any flags.Results [StatusNone] = true ∧
       ∀ e ∈ TestStorage.get s.tests k, isEndingEvent e = false) := by
  constructor
  · intro h
    have hguard : s.tests ≠ [] ∧ Statuses.Any flags.Results [StatusNone] = true := by
      by_contra hc
      unfold drainKeys at h
      rw [if_neg hc] at h
      simp at h
    unfold drainKeys at h
    rw [if_pos hguard] at h
    obtain ⟨p, hmem, hfst⟩ := List.mem_map.mp ((sortKeys_perm _).mem_iff.mp h)
    obtain ⟨k', es⟩ := p
    simp only at hfst
    subst hfst
    have h3 := List.mem_filter.mp hmem
    have h4 := List.mem_filter.mp h3.1
    have hpair : (k', es) ∈ s.tests := h4.1
    have hget : TestStorage.get s.tests k' = es := get_of_mem_nodup _ _ _ hinv.1 hpair
    refine ⟨List.mem_map.mpr ⟨(k', es), hpair, rfl⟩, by simpa using h4.2,
      hguard.2, ?_⟩
    intro e he
    rw [hget] at he
    have h6 : es.any isEndingEvent = false := by
      simpa [isEndingEvent] using h3.2
    simpa using List.any_eq_false.mp h6 e he
  · rintro ⟨hk, hnp, hnone, hend⟩
    exact mem_drainKeys_of flags s hinv k hk hnp hnone hend

/-! ## Claim theorems -/

/-- C1: for every event history, the derived Status equals the status
corresponding to the first event in the history whose action is one of
fail/pass/skip/bench (found by a first-match scan, with no priority
scheme); if no such event exists, including the empty history, the Status
is `none`. -/
theorem status_first_terminal_decides (es : Events) :
    es.Status =
      ((es.find? isEndingEvent).map fun e => actionStatus e.action).getD StatusNone :=
  status_eq_find es

/-- C2: compaction is idempotent: `Compact (Compact h) = Compact h` for
every event history `h`. -/
theorem compact_idempotent (es : Events) : es.Compact.Compact = es.Compact := by
  have h1 : es.Compact.Compact =
      es.Compact.filter (fun e =>
        ! compactRemove (compactParams es.Compact).1 (compactParams es.Compact).2.1
          (compactParams es.Compact).2.2 e) := rfl
  rw [h1, compactParams_compact]
  show (es.filter _).filter _ = es.filter _
  rw [List.filter_filter]
  exact List.filter_congr fun e _ => by rw [Bool.and_self]

/-- C9: compaction never removes a terminal event — every fail/pass/skip/
bench event of `h` appears in `Compact h` — and consequently
`Status (Compact h) = Status h`. -/
theorem compact_preserves_terminal (es : Events) :
    (∀ e : Event, e ∈ es → isEndingEvent e = true → e ∈ es.Compact) ∧
      es.Compact.Status = es.Status := by
  constructor
  · intro e he ht
    show e ∈ es.filter _
    rw [List.mem_filter]
    exact ⟨he, by simp [compactRemove_ending _ _ _ _ ht]⟩
  · have h : (Events.Compact es).find? isEndingEvent = es.find? isEndingEvent := by
      unfold Events.Compact
      exact find?_filter_of_imp es fun a ha => by
        simp [compactRemove_ending _ _ _ _ ha]
    rw [status_eq_find, status_eq_find, h]

/-- C6: coverage extraction returns the empty string on the empty history
and on every history of a per-test identity; returns the empty string when
no output event matches the `"coverage: "`/`" of statements"` markers; and
for a package-level history whose first matching output event's trimmed
text is `"coverage: " ++ mid ++ " of statements"`, returns the trimmed
text `mid` between the markers. -/
theorem coverage_extraction :
    (Events.FindCoverage [] = []) ∧
    (∀ (e0 : Event) (rest : Events), e0.test ≠ [] →
      Events.FindCoverage (e0 :: rest) = []) ∧
    (∀ es : Events, (∀ e ∈ es, coverageMatch e = false) →
      Events.FindCoverage es = []) ∧
    (∀ (e0 : Event) (rest : Events) (e : Event) (mid : Str),
      e0.package ≠ [] → e0.test = [] →
      (e0 :: rest).find? coverageMatch = some e →
      trimSpace e.output = str "coverage: " ++ mid ++ str " of statements" →
      Events.FindCoverage (e0 :: rest) = trimSpace mid) := by
  refine ⟨rfl, ?_, ?_, ?_⟩
  · intro e0 rest h
    simp [Events.FindCoverage, h]
  · intro es h
    match es with
    | [] => rfl
    | e0 :: rest =>
      have hn : (e0 :: rest).find? coverageMatch = none :=
        List.find?_eq_none.mpr fun x hx => by simp [h x hx]
      simp [Events.FindCoverage, hn]
  · intro e0 rest e mid hpkg htest hfind hout
    simp only [Events.FindCoverage]
    rw [if_neg (by simp [hpkg, htest]), hfind]
    exact coverageExtract_between e.output mid hout

/-- The package-level coverage output event of the spec's Scenario D. -/
def ev6 : Event := ⟨0, ActionOutput, str "util", [], 0, str "coverage: 87.5% of statements\n"⟩

/-- Witness for C6 at Scenario D: the extracted coverage is `"87.5%"`. -/
theorem coverage_extraction_witness : Events.FindCoverage [ev6] = str "87.5%" := by
  have h := coverage_extraction.2.2.2 ev6 [] ev6 (str "87.5%")
    (by decide) (by decide) (by decide) (by decide)
  rw [h]
  decide

/-- C4 as stated: for any set of keys (in any map iteration order), a
package-level key always comes after every test key of its package in the
sorted output. -/
def claimC4Stmt : Prop :=
  ∀ (ks : List Key) (p t : Str), t ≠ [] →
    Key.mk p t ∈ ks → Key.mk p [] ∈ ks →
    (sortKeys ks).indexOf (Key.mk p t) < (sortKeys ks).indexOf (Key.mk p [])

/-- C4 counterexample: with a third key of another package present, the
non-transitive comparator makes the stable insertion sort place the
package-level key `{p, ""}` before its own test key `{p, "T"}` for the
iteration order `[{p!, ""}, {p, ""}, {p, "T"}]`. -/
theorem package_key_order_counterexample : ¬ claimC4Stmt := by
  intro h
  have h3 := h [⟨str "p!", []⟩, ⟨str "p", []⟩, ⟨str "p", str "T"⟩]
    (str "p") (str "T") (by decide) (by decide) (by decide)
  exact absurd h3 (by decide)

/-- C4 amended: the comparator itself always ranks a package-level key
after any test key of the same package (both ways), and with exactly the
two keys `{a, T1}` and `{a, ""}` present the sorted output is
`[T1-key, package-key]` for either iteration order; the global placement
property can fail when keys of other packages are present. -/
theorem package_key_after_tests :
    (∀ p t : Str, t ≠ [] →
      keyLess ⟨p, t⟩ ⟨p, []⟩ = true ∧ keyLess ⟨p, []⟩ ⟨p, t⟩ = false) ∧
    sortKeys [⟨str "a", str "T1"⟩, ⟨str "a", []⟩] =
      [⟨str "a", str "T1"⟩, ⟨str "a", []⟩] ∧
    sortKeys [⟨str "a", []⟩, ⟨str "a", str "T1"⟩] =
      [⟨str "a", str "T1"⟩, ⟨str "a", []⟩] := by
  refine ⟨?_, by decide, by decide⟩
  intro p t ht
  constructor
  · simp [keyLess]
    exact List.length_pos.mpr ht
  · simp [keyLess]

/-- Witness for C4's amended theorem at package `"a"`, test `"T1"`. -/
theorem package_key_after_tests_witness :
    keyLess ⟨str "a", str "T1"⟩ ⟨str "a", []⟩ = true ∧
      keyLess ⟨str "a", []⟩ ⟨str "a", str "T1"⟩ = false :=
  package_key_after_tests.1 (str "a") (str "T1") (by decide)

/-- C5 as stated: the key ordering is transitive and the sorted sequence
is independent of the iteration order of the underlying map. -/
def claimC5Stmt : Prop :=
  (∀ a b c : Key, keyLess a b = true → keyLess b c = true → keyLess a c = true) ∧
  (∀ ks1 ks2 : List Key, ks1.Perm ks2 → sortKeys ks1 = sortKeys ks2)

/-- C5 counterexample: transitivity fails on
`{p, "T"} < {p, ""} < {p!, ""}` yet `¬ {p, "T"} < {p!, ""}`, and two
distinct keys with the same string form (`{a.b, c}` and `{a, b.c}`) are
mutually incomparable, so their relative order follows the iteration
order. -/
theorem ordering_counterexample :
    (¬ claimC5Stmt) ∧
    sortKeys [⟨str "a.b", str "c"⟩, ⟨str "a", str "b.c"⟩] ≠
      sortKeys [⟨str "a", str "b.c"⟩, ⟨str "a.b", str "c"⟩] ∧
    ([⟨str "a.b", str "c"⟩, ⟨str "a", str "b.c"⟩] : List Key).Perm
      [⟨str "a", str "b.c"⟩, ⟨str "a.b", str "c"⟩] := by
  refine ⟨?_, by decide, ?_⟩
  · intro hc
    have h3 := hc.1 ⟨str "p", str "T"⟩ ⟨str "p", []⟩ ⟨str "p!", []⟩
      (by decide) (by decide)
    exact absurd h3 (by decide)
  · exact List.Perm.swap _ _ _

/-- C5 amended: the comparator is asymmetric (hence irreflexive and with
deterministic pairwise orientation), and `OrderedKeys` always returns a
permutation of the key set; transitivity and independence from the map
iteration order do not hold. -/
theorem ordering_asymm_perm :
    (∀ a b : Key, keyLess a b = true → keyLess b a = false) ∧
    (∀ ks : List Key, (sortKeys ks).Perm ks) :=
  ⟨keyLess_asymm, sortKeys_perm⟩

/-- Witness for C5's amended theorem at a concrete pair and list. -/
theorem ordering_asymm_perm_witness :
    keyLess ⟨str "a", []⟩ ⟨str "a", str "T1"⟩ = false ∧
      (sortKeys [⟨str "a", str "T1"⟩, ⟨str "a", []⟩]).Perm
        [⟨str "a", str "T1"⟩, ⟨str "a", []⟩] :=
  ⟨ordering_asymm_perm.1 _ _ (by decide), ordering_asymm_perm.2 _⟩

/-- Scenario A's three events (C7): run, its boilerplate output line, and
the pass with elapsed 0.01s (10000 microseconds). -/
def ev7run : Event := ⟨1, ActionRun, str "demo", str "TestX", 0, []⟩

def ev7out : Event := ⟨2, ActionOutput, str "demo", str "TestX", 0, str "=== RUN   TestX\n"⟩

def ev7pass : Event := ⟨3, ActionPass, str "demo", str "TestX", 10000, []⟩

def scenarioA : Events := [ev7run, ev7out, ev7pass]

/-- C7 as stated: Status is pass, Compact leaves only the pass event, and
the rendered detail line contains `"PASS demo.TestX (0.01s)"` (with a
single space before the elapsed annotation). -/
def claimC7Stmt : Prop :=
  Events.Status scenarioA = StatusPass ∧
  Events.Compact scenarioA = [ev7pass] ∧
  containsStr (str "PASS demo.TestX (0.01s)") (Events.PrintDetail scenarioA V0) = true

/-- C7 counterexample: the first two parts hold but the rendered line
separates the identity from the elapsed annotation by two spaces, so the
claimed single-space substring does not occur. -/
theorem scenarioA_detail_counterexample :
    Events.Status scenarioA = StatusPass ∧
    Events.Compact scenarioA = [ev7pass] ∧
    ¬ claimC7Stmt := by
  refine ⟨by decide, by decide, ?_⟩
  intro h
  exact absurd h.2.2 (by decide)

/-- C7 amended: Status is pass, Compact removes the run event and the
`=== RUN` output leaving only the pass event, and the detail line contains
`"PASS demo.TestX"` followed by `"(0.01s)"`, separated by two spaces. -/
theorem scenarioA_detail :
    Events.Status scenarioA = StatusPass ∧
    Events.Compact scenarioA = [ev7pass] ∧
    containsStr (str "PASS demo.TestX  (0.01s)") (Events.PrintDetail scenarioA V0) = true ∧
    containsStr (str "PASS demo.TestX") (Events.PrintDetail scenarioA V0) = true ∧
    containsStr (str "(0.01s)") (Events.PrintDetail scenarioA V0) = true := by
  decide

/-- C10: a detail line emits nothing for an empty history, and nothing
when verbosity is at most `V3` and the compacted history is empty; the
live phase still marks such a key as printed whenever its event passes
the render filter. -/
theorem silent_detail_still_marked :
    (∀ V : Verbosity, Events.PrintDetail [] V = []) ∧
    (∀ (es : Events) (V : Verbosity), V ≤ V3 → es.Compact = [] →
      Events.PrintDetail es V = []) ∧
    (∀ (flags : Flags) (s : RunState) (e : Event),
      e.key ∉ s.printed → Statuses.HasAction flags.Results e.action = true →
      e.key ∈ (step flags s (some e)).printed) := by
  refine ⟨fun V => rfl, ?_, ?_⟩
  · intro es V hv hc
    by_cases hes : es = []
    · subst hes; rfl
    · simp [Events.PrintDetail, hes, hv, hc]
  · intro flags s e hmem hact
    have hcont : s.printed.contains e.key = false := by
      simpa using hmem
    simp [step, hcont, hact, hmem]

/-- Flags and events instantiating C10's theorem: under the default
Results filter a fail event fires the live render. -/
def flags10 : Flags := ⟨V0, [StatusFail, StatusNone], [StatusFail, StatusNone]⟩

def ev10run : Event := ⟨0, ActionRun, str "q", str "R", 0, []⟩

def ev10fail : Event := ⟨0, ActionFail, str "q", str "R", 0, []⟩

/-- Witness for C10: a history holding only a run event renders nothing at
verbosity 0, and a fail event's key is marked printed by the live step. -/
theorem silent_detail_still_marked_witness :
    Events.PrintDetail [ev10run] V0 = [] ∧
    ev10fail.key ∈ (step flags10 initState (some ev10fail)).printed :=
  ⟨silent_detail_still_marked.2.1 [ev10run] V0 (by decide) (by decide),
   silent_detail_still_marked.2.2 flags10 initState ev10fail (by decide) (by decide)⟩

/-- C3 as stated: each key is rendered live at most once, and every key
present in the store is rendered exactly once across the live and
draining phases combined. -/
def claimC3Stmt : Prop :=
  ∀ (flags : Flags) (input : List (Option Event)),
    (∀ k : Key, (livePhase flags input).liveOut.count k ≤ 1) ∧
    (∀ k : Key, k ∈ keysOf (livePhase flags input).tests →
      ((livePhase flags input).liveOut ++
        drainKeys flags (livePhase flags input)).count k = 1)

/-- C3 counterexample: under the default Results filter {fail, none}, a
key whose only event is a pass is stored but rendered by neither phase —
the live filter rejects the pass action and the draining pass only
renders keys with no terminal action. -/
theorem render_exactly_once_counterexample : ¬ claimC3Stmt := by
  intro h
  have h2 := (h ⟨V0, [StatusFail, StatusNone], [StatusFail, StatusNone]⟩
      [some ⟨1, ActionPass, str "demo", str "TestX", 0, []⟩]).2
    (Key.mk (str "demo") (str "TestX")) (by decide)
  exact absurd h2 (by decide)

/-- C3 amended: each key is rendered at most once by the live phase and
at most once across both phases combined; and a stored key is rendered by
the draining pass if and only if it was not rendered live, the Results
filter contains `none`, and the key's history has no terminal action.
Stored keys whose terminal action is filtered out are never rendered. -/
theorem render_at_most_once (flags : Flags) (input : List (Option Event)) :
    (∀ k : Key, (livePhase flags input).liveOut.count k ≤ 1) ∧
    (∀ k : Key, ((livePhase flags input).liveOut ++
      drainKeys flags (livePhase flags input)).count k ≤ 1) ∧
    (∀ k : Key, k ∈ drainKeys flags (livePhase flags input) ↔
      (k ∈ keysOf (livePhase flags input).tests ∧
       k ∉ (livePhase flags input).liveOut ∧
       Statuses.Any flags.Results [StatusNone] = true ∧
       ∀ e ∈ TestStorage.get (livePhase flags input).tests k,
         isEndingEvent e = false)) := by
  obtain ⟨h1, h2, h3⟩ := livePhase_inv flags input
  refine ⟨?_, ?_, ?_⟩
  · exact fun k => List.nodup_iff_count_le_one.mp h3 k
  · have hnd : ((livePhase flags input).liveOut ++
        drainKeys flags (livePhase flags input)).Nodup := by
      rw [List.nodup_append]
      exact ⟨h3, drainKeys_nodup _ _ ⟨h1, h2, h3⟩,
        fun a ha hb => (mem_drainKeys_not_printed _ _ a hb) ((h2 a).mpr ha)⟩
    exact fun k => List.nodup_iff_count_le_one.mp hnd k
  · intro k
    rw [mem_drainKeys_iff flags _ ⟨h1, h2, h3⟩ k]
    exact and_congr_right fun _ => and_congr_left fun _ => not_congr (h2 k)

/-- Flags and a terminal-action-free event instantiating C3's theorem. -/
def flags3 : Flags := ⟨V0, [StatusFail, StatusNone], [StatusFail, StatusNone]⟩

def ev3run : Event := ⟨0, ActionRun, str "w", str "T", 0, []⟩

/-- Witness for C3's amended theorem: the started-but-never-finished key
is rendered by the draining pass. -/
theorem render_at_most_once_witness :
    Key.mk (str "w") (str "T") ∈
      drainKeys flags3 (livePhase flags3 [some ev3run]) :=
  ((render_at_most_once flags3 [some ev3run]).2.2 (Key.mk (str "w") (str "T"))).mpr
    ⟨by decide, by decide, by decide, by decide⟩

/-- C8: a single undecodable line between two well-formed lines is
skipped: the store, the printed set and the live render sequence are
exactly those of the stream without the bad line, one extra diagnostic is
counted, and both surrounding events are appended to the histories of
their own keys. -/
theorem decode_failure_isolated (flags : Flags) (pre post : List (Option Event))
    (e1 e2 : Event) :
    (livePhase flags (pre ++ some e1 :: none :: some e2 :: post)).tests =
      (livePhase flags (pre ++ some e1 :: some e2 :: post)).tests ∧
    (livePhase flags (pre ++ some e1 :: none :: some e2 :: post)).printed =
      (livePhase flags (pre ++ some e1 :: some e2 :: post)).printed ∧
    (livePhase flags (pre ++ some e1 :: none :: some e2 :: post)).liveOut =
      (livePhase flags (pre ++ some e1 :: some e2 :: post)).liveOut ∧
    (livePhase flags (pre ++ some e1 :: none :: some e2 :: post)).diags =
      (livePhase flags (pre ++ some e1 :: some e2 :: post)).diags + 1 ∧
    e1 ∈ TestStorage.get
      (livePhase flags (pre ++ some e1 :: none :: some e2 :: post)).tests e1.key ∧
    e2 ∈ TestStorage.get
      (livePhase flags (pre ++ some e1 :: none :: some e2 :: post)).tests e2.key := by
  have hsplit1 : pre ++ some e1 :: none :: some e2 :: post =
      (pre ++ [some e1]) ++ (none :: some e2 :: post) := by simp
  have hsplit2 : pre ++ some e1 :: some e2 :: post =
      (pre ++ [some e1]) ++ (some e2 :: post) := by simp
  have hfold1 : livePhase flags (pre ++ some e1 :: none :: some e2 :: post) =
      (some e2 :: post).foldl (step flags)
        (step flags ((pre ++ [some e1]).foldl (step flags) initState) none) := by
    unfold livePhase
    rw [hsplit1, List.foldl_append]
    rfl
  have hfold2 : livePhase flags (pre ++ some e1 :: some e2 :: post) =
      (some e2 :: post).foldl (step flags)
        ((pre ++ [some e1]).foldl (step flags) initState) := by
    unfold livePhase
    rw [hsplit2, List.foldl_append]
  obtain ⟨ht, hp, hl⟩ := foldl_step_core_congr flags (some e2 :: post)
    (step flags ((pre ++ [some e1]).foldl (step flags) initState) none)
    ((pre ++ [some e1]).foldl (step flags) initState) rfl rfl rfl
  have hmem1 : e1 ∈ TestStorage.get
      (livePhase flags (pre ++ some e1 :: none :: some e2 :: post)).tests e1.key := by
    unfold livePhase
    rw [foldl_step_tests, get_foldl_Append]
    simp [TestStorage.get, List.mem_filter, List.filterMap_append]
  have hmem2 : e2 ∈ TestStorage.get
      (livePhase flags (pre ++ some e1 :: none :: some e2 :: post)).tests e2.key := by
    unfold livePhase
    rw [foldl_step_tests, get_foldl_Append]
    simp [TestStorage.get, List.mem_filter, List.filterMap_append]
  refine ⟨by rw [hfold1, hfold2]; exact ht, by rw [hfold1, hfold2]; exact hp,
    by rw [hfold1, hfold2]; exact hl, ?_, hmem1, hmem2⟩
  unfold livePhase
  rw [foldl_step_diags, foldl_step_diags]
  simp [List.count_append, List.count_cons]
  omega

/-- A run event and a pass event used to instantiate C9's theorem. -/
def ev9run : Event := ⟨0, ActionRun, str "p", str "T", 0, []⟩

def ev9pass : Event := ⟨1, ActionPass, str "p", str "T", 0, []⟩

/-- Witness for C9 at the concrete history `[run, pass]`. -/
theorem compact_preserves_terminal_witness :
    ev9pass ∈ (Events.Compact [ev9run, ev9pass]) ∧
      Events.Status (Events.Compact [ev9run, ev9pass]) = Events.Status [ev9run, ev9pass] :=
  ⟨(compact_preserves_terminal [ev9run, ev9pass]).1 ev9pass (by decide) (by decide),
   (compact_preserves_terminal [ev9run, ev9pass]).2⟩

end Tgo
